import Mathlib

/-!
Verification of the link-metadata extraction pipeline in src/dist/index.js:
URL location inside block content, URL rule matching, static extraction
result handling, asset resolution for image properties, property
formatting, and tag-schema reconciliation. Each JS function is embedded
as a total Lean function; host calls that can fail (asset upload, fetch,
atob, regex compilation, script execution) are represented by explicit
outcome parameters, and JS try/catch blocks are embedded as handling of
those outcomes.
-/

namespace FBook

/-- Property type enum from the source, in declaration order:
JSON 0, Text 1, BlockRefs 2, Number 3, Boolean 4, DateTime 5, TextChoices 6. -/
inductive PropType where
  | json
  | text
  | blockRefs
  | number
  | boolean
  | dateTime
  | textChoices

deriving instance DecidableEq, Repr for PropType

/-- Numeric code of a property type, matching the PropType object values. -/
def PropType.code : PropType → Nat
  | .json => 0
  | .text => 1
  | .blockRefs => 2
  | .number => 3
  | .boolean => 4
  | .dateTime => 5
  | .textChoices => 6

/-- A JS number: finite (modelled as a rational) or NaN. -/
inductive JsNum where
  | nan
  | fin (q : Rat)

deriving instance DecidableEq, Repr for JsNum

/-- Dynamic JS value as used by the pipeline. Arrays are modelled as string
arrays: the only arrays flowing through property values are choice-name
lists. Absent / other values are collapsed into the null constructor. -/
inductive JsVal where
  | str (s : String)
  | num (n : JsNum)
  | bool (b : Bool)
  | arr (xs : List String)
  | date (t : Int)
  | null

deriving instance DecidableEq, Repr for JsVal

/-- A TextChoices choice as stored by the code: field n is the choice name,
field c its color. -/
structure Choice where
  n : String
  c : String

deriving instance DecidableEq, Repr for Choice

/-- Property typeArgs. subType and choices are the fields the code reads and
writes; extra stands for any other pre-existing fields, preserved by the
object spread in the schema merge. An absent typeArgs object is modelled as
Option.none at the use sites. -/
structure TypeArgs where
  subType : Option String
  choices : Option (List Choice)
  extra : List (String × String)

deriving instance DecidableEq, Repr for TypeArgs

/-- The property wire shape: name, type, value and optional typeArgs. Schema
entries and staged schema updates reuse this shape with a null value. -/
structure Property where
  name : String
  type : PropType
  value : JsVal
  typeArgs : Option TypeArgs

deriving instance DecidableEq, Repr for Property

/-- An inline content item of a block: tag t, optional url (present only on
link items) and v, which is some s exactly when the item value is the
string s. -/
structure ContentItem where
  t : String
  url : Option String
  v : Option String

deriving instance DecidableEq, Repr for ContentItem

/-- A block: its content is an optional list of inline items (absent content
is Option.none). -/
structure Block where
  content : Option (List ContentItem)

deriving instance DecidableEq, Repr for Block

/-! ### String helpers mirroring the JS built-ins used by the source -/

/-- Characters of the JS whitespace class (the regex class backslash-s and
the set removed by String.prototype.trim). -/
def isJsSpace (c : Char) : Bool :=
  c == ' ' || c == '\t' || c == '\n' || c == '\r' ||
  c.toNat == 0x0b || c.toNat == 0x0c || c.toNat == 0xa0 ||
  c.toNat == 0x1680 || (0x2000 <= c.toNat && c.toNat <= 0x200a) ||
  c.toNat == 0x2028 || c.toNat == 0x2029 || c.toNat == 0x202f ||
  c.toNat == 0x205f || c.toNat == 0x3000 || c.toNat == 0xfeff

/-- JS String.prototype.trim on a character list. -/
def trimL (cs : List Char) : List Char :=
  ((cs.dropWhile isJsSpace).reverse.dropWhile isJsSpace).reverse

/-- JS String.prototype.trim. -/
def jsTrim (s : String) : String := String.mk (trimL s.data)

/-- Whether the first list is a prefix of the second (JS startsWith). -/
def hasPrefL : List Char → List Char → Bool
  | [], _ => true
  | _ :: _, [] => false
  | a :: as, b :: bs => a == b && hasPrefL as bs

/-- JS String.prototype.startsWith. -/
def strStarts (s pre : String) : Bool := hasPrefL pre.data s.data

/-- Whether needle occurs as a contiguous sublist of hay (JS includes). -/
def containsL (needle : List Char) : List Char → Bool
  | [] => needle.isEmpty
  | c :: cs => hasPrefL needle (c :: cs) || containsL needle cs

/-- ASCII lower-casing of a character list (JS toLowerCase on the
character range exercised here). -/
def lowerL (cs : List Char) : List Char := cs.map Char.toLower

/-- JS String.prototype.toLowerCase, restricted to per-character ASCII
lowering. -/
def jsToLower (s : String) : String := String.mk (lowerL s.data)

/-- Index of the last occurrence of a character (JS lastIndexOf), none when
absent. -/
def lastIdxOf (ch : Char) : List Char → Option Nat
  | [] => none
  | a :: as =>
    match lastIdxOf ch as with
    | some i => some (i + 1)
    | none => if a == ch then some 0 else none

/-- JS String.prototype.split with a single-character separator. -/
def splitCharL (sep : Char) : List Char → List (List Char)
  | [] => [[]]
  | c :: cs =>
    if c == sep then [] :: splitCharL sep cs
    else
      match splitCharL sep cs with
      | g :: gs => (c :: g) :: gs
      | [] => [[c]]

/-- JS value.split(" ") as used by the TextChoices normalization. -/
def jsSplitSpace (s : String) : List String :=
  (splitCharL ' ' s.data).map String.mk

/-! ### URL Locator (findUrlInBlock, src/dist/index.js lines 138-152) -/

/-- Attempts to match the regex https?://[^backslash-s]+ at the head of the
character list, returning the matched characters. The scheme alternatives
and the greedy non-space tail follow ECMAScript matching at this position. -/
def matchHttpAt (cs : List Char) : Option (List Char) :=
  if hasPrefL ['h', 't', 't', 'p'] cs then
    match cs.drop 4 with
    | 's' :: ':' :: '/' :: '/' :: r =>
      let tail := r.takeWhile (fun c => !isJsSpace c)
      if tail.isEmpty then none
      else some (['h', 't', 't', 'p', 's', ':', '/', '/'] ++ tail)
    | ':' :: '/' :: '/' :: r =>
      let tail := r.takeWhile (fun c => !isJsSpace c)
      if tail.isEmpty then none
      else some (['h', 't', 't', 'p', ':', '/', '/'] ++ tail)
    | _ => none
  else none

/-- Leftmost match of https?://[^backslash-s]+ in the character list
(JS String.prototype.match, first match). -/
def findHttpMatch : List Char → Option (List Char)
  | [] => none
  | c :: cs =>
    match matchHttpAt (c :: cs) with
    | some m => some m
    | none => findHttpMatch cs

/-- JS item.v.includes with the literal argument http. -/
def containsHttp (cs : List Char) : Bool := containsL ['h', 't', 't', 'p'] cs

/-- JS truthiness of an optional string (undefined and the empty string are
falsy). -/
def urlTruthy (o : Option String) : Bool :=
  match o with
  | some u => u != ""
  | none => false

/-- The loop body of findUrlInBlock over the content items. -/
def findUrlInItems : List ContentItem → String
  | [] => ""
  | it :: rest =>
    if it.t == "a" && urlTruthy it.url then
      it.url.getD ""
    else
      match it.v with
      | some s =>
        if containsHttp s.data then
          match findHttpMatch s.data with
          | some m => String.mk m
          | none => findUrlInItems rest
        else findUrlInItems rest
      | none => findUrlInItems rest

/-- findUrlInBlock from the source: empty string for a missing block or
missing content, otherwise the first URL produced by the item loop. -/
def findUrlInBlock (b : Option Block) : String :=
  match b with
  | some blk =>
    match blk.content with
    | some items => findUrlInItems items
    | none => ""
  | none => ""

/-- The URL an item yields on its own: a link item with a truthy url yields
that url, otherwise a string-valued item yields the first regex-extracted
URL of its text. Written from the spec wording for the URL Locator. -/
def itemUrl (it : ContentItem) : Option String :=
  if it.t == "a" && urlTruthy it.url then it.url
  else
    match it.v with
    | some s => (findHttpMatch s.data).map String.mk
    | none => none

/-- Spec form of the URL Locator: the first URL found in the ordered
content, an explicit link item url preferred over a regex extraction within
each item, and the empty string when no item yields a URL. -/
def urlLocatorSpec (b : Option Block) : String :=
  (((b.bind Block.content).getD []).findSome? itemUrl).getD ""

/-! ### Rule Matcher (matchRule, src/dist/index.js lines 203-222) -/

/-- An extraction rule as configured. -/
structure Rule where
  name : String
  enabled : Bool
  urlPattern : String
  tagName : String
  downloadCover : Bool
  script : List String

deriving instance DecidableEq, Repr for Rule

/-- The regex source and flags matchRule hands to the RegExp constructor:
after trimming, a pattern that starts with a slash and whose last slash is
at a later index is read as a slash-delimited literal (body between the
slashes, flags after the last one); any other pattern is used whole with
the implied flag i. -/
def patternParts (p : String) : String × String :=
  let pattern := jsTrim p
  let cs := pattern.data
  if hasPrefL ['/'] cs then
    match lastIdxOf '/' cs with
    | some i =>
      if 0 < i then (String.mk ((cs.drop 1).take (i - 1)), String.mk (cs.drop (i + 1)))
      else (pattern, "i")
    | none => (pattern, "i")
  else (pattern, "i")

/-- The per-rule test of matchRule, parameterized by the host regex engine
E : source → flags → input → Option Bool, where none models a RegExp
constructor exception and some b the test result. The try/catch of the
source maps the none outcome to false (rule treated as non-matching). -/
def ruleMatches (E : String → String → String → Option Bool)
    (url : String) (r : Rule) : Bool :=
  if !r.enabled then false
  else
    let parts := patternParts r.urlPattern
    (E parts.1 parts.2 url).getD false

/-- matchRule from the source: the first rule (in list order) that is
enabled and whose compiled pattern tests true against the URL. -/
def matchRule (E : String → String → String → Option Bool)
    (url : String) (rules : List Rule) : Option Rule :=
  rules.find? (ruleMatches E url)

/-- Valid ECMAScript regex flag strings: known flag letters, none
repeated. -/
def flagsOkL : List Char → List Char → Bool
  | _, [] => true
  | seen, c :: cs =>
    ['d', 'g', 'i', 'm', 's', 'u', 'v', 'y'].contains c &&
      !seen.contains c && flagsOkL (c :: seen) cs

/-- Concrete model of the ECMAScript RegExp builtin on the fragment of
patterns this development evaluates concretely: the universal pattern .*
(tests true on every input), and metacharacter-free literal patterns
(substring test, case-insensitive when the i flag is set). Invalid flag
strings and any other pattern (in particular one containing a
metacharacter such as an unbalanced parenthesis) yield none, the model of
a constructor exception. Theorems quantifying over all engines do not
depend on this instance. -/
def regexExec (pattern flags url : String) : Option Bool :=
  if !flagsOkL [] flags.data then none
  else if pattern == ".*" then some true
  else if pattern.data.all (fun c =>
      c.isAlpha || c.isDigit || c == '/' || c == ':' || c == '-' ||
      c == '_' || c == ' ') then
    let ci := flags.data.contains 'i'
    some (containsL (if ci then lowerL pattern.data else pattern.data)
                    (if ci then lowerL url.data else url.data))
  else none

/-! ### Static extraction result handling
(extractMetadataStatic, src/dist/index.js lines 244-287) -/

/-- Outcome of the static fetch of the page, as seen by
extractMetadataStatic: a thrown network error, or a response with its ok
flag, status and body. -/
inductive PageFetch where
  | threw (msg : String)
  | resp (ok : Bool) (status : Nat) (html : String)

deriving instance DecidableEq, Repr for PageFetch

/-- Outcome of running the rule script (the Function constructor plus the
call): it threw, returned an array of properties, or returned any
non-array value. -/
inductive ScriptOutcome where
  | threw (msg : String)
  | returnedArr (props : List Property)
  | returnedOther

deriving instance DecidableEq, Repr for ScriptOutcome

/-- extractMetadataStatic from the source, with the host effects (URL
validation, fetch, script execution) supplied as outcomes. An empty or
invalid URL throws Invalid URL; a thrown fetch propagates; a non-ok
response throws an HTTP error; a thrown script propagates through the
rethrowing catch; an array result is returned as is; a non-array result is
replaced by the empty list (Array.isArray result ? result : []). -/
def extractMetadataStatic (urlValid : Bool) (fetched : PageFetch)
    (run : ScriptOutcome) (url : String) : Except String (List Property) :=
  if url == "" || !urlValid then .error "Invalid URL"
  else
    match fetched with
    | .threw m => .error m
    | .resp ok status _ =>
      if !ok then .error ("HTTP error! status: " ++ toString status)
      else
        match run with
        | .threw m => .error m
        | .returnedArr l => .ok l
        | .returnedOther => .ok []

/-! ### Asset Resolver (processProperties, src/dist/index.js lines 320-418) -/

/-- Outcome of an awaited host call that yields a string (upload-asset-url,
upload-asset-binary): it threw, or returned a string (empty modelling any
falsy return). -/
inductive CallOutcome where
  | threw
  | ret (s : String)

deriving instance DecidableEq, Repr for CallOutcome

/-- Outcome of the fallback image fetch: a thrown error (including a
failing arrayBuffer read), or a response with its ok flag, optional
content-type header and body bytes. -/
inductive FetchOutcome where
  | threw
  | resp (ok : Bool) (contentType : Option String) (bytes : List Nat)

deriving instance DecidableEq, Repr for FetchOutcome

/-- The host environment of the asset resolver: the two upload backends,
the image fetch, and atob (none models the exception atob throws on
invalid input). -/
structure AssetEnv where
  uploadUrl : String → CallOutcome
  uploadBinary : String → List Nat → CallOutcome
  fetchImage : String → FetchOutcome
  atob : String → Option (List Nat)

/-- Characters the regex dot cannot match (ECMAScript line terminators). -/
def isLineTerm (c : Char) : Bool :=
  c == '\n' || c == '\r' || c.toNat == 0x2028 || c.toNat == 0x2029

/-- The data-URI regex of the source (anchored,
data colon image slash [^;]+ ; base64 , .+): on success, the content type
(image/ plus the run up to the first semicolon) and the base64 payload
(nonempty, free of line terminators, running to the end of the string). -/
def parseDataUri (s : String) : Option (String × String) :=
  let cs := s.data
  if hasPrefL "data:image/".data cs then
    let rest := cs.drop 11
    let mt := rest.takeWhile (fun c => c != ';')
    let rest2 := rest.drop mt.length
    if mt.isEmpty then none
    else if hasPrefL ";base64,".data rest2 then
      let payload := rest2.drop 8
      if payload.isEmpty then none
      else if payload.any isLineTerm then none
      else some (String.mk ("image/".data ++ mt), String.mk payload)
    else none
  else none

/-- The fetch fallback of the remote branch (inside the apiError catch):
a thrown fetch or a thrown binary upload propagates (to the outer catch);
a non-ok response or a falsy upload result keeps the original value; a
truthy uploaded URL replaces it. The content type defaults to image/png
when the header is absent. -/
def fallbackFetch (env : AssetEnv) (v : String) : Except Unit String :=
  match env.fetchImage v with
  | .threw => .error ()
  | .resp ok ct bytes =>
    if ok then
      match env.uploadBinary (ct.getD "image/png") bytes with
      | .threw => .error ()
      | .ret u => if u != "" then .ok u else .ok v
    else .ok v

/-- The body of the per-item try block of processProperties for a string
value v (already known to start with http or data:). Except models a JS
exception escaping to the outer catch; every swallowed failure returns the
original v. -/
def resolveImageAttempt (env : AssetEnv) (v : String) : Except Unit String :=
  if strStarts v "data:" then
    match parseDataUri v with
    | some (ct, b64) =>
      match env.atob b64 with
      | none => .ok v
      | some bytes =>
        match env.uploadBinary ct bytes with
        | .threw => .ok v
        | .ret u => if u != "" then .ok u else .ok v
    | none => .ok v
  else
    match env.uploadUrl v with
    | .threw => fallbackFetch env v
    | .ret u => if u != "" then .ok u else fallbackFetch env v

/-- The subType of a property, through its optional typeArgs. -/
def subTypeOf (p : Property) : Option String := p.typeArgs.bind TypeArgs.subType

/-- The guard of the asset resolver: cover download requested, subType
image, and a string value starting with http or data:. -/
def shouldResolve (downloadCover : Bool) (item : Property) : Bool :=
  downloadCover && (subTypeOf item == some "image") &&
    (match item.value with
     | .str s => strStarts s "http" || strStarts s "data:"
     | _ => false)

/-- One iteration of the processProperties loop: the emitted item keeps
name, type and typeArgs; the value is replaced only by a successful
resolution, the outer catch restoring the original value on any escaped
exception. -/
def processItem (env : AssetEnv) (downloadCover : Bool) (item : Property) :
    Property :=
  { name := item.name, type := item.type, typeArgs := item.typeArgs,
    value :=
      if shouldResolve downloadCover item then
        match item.value with
        | .str s =>
          match resolveImageAttempt env s with
          | .ok u => JsVal.str u
          | .error _ => JsVal.str s
        | v => v
      else item.value }

/-- processProperties from the source: one output item per input item, in
order. -/
def processProperties (env : AssetEnv) (downloadCover : Bool)
    (metadata : List Property) : List Property :=
  metadata.map (processItem env downloadCover)

/-! ### Property Normalizer
(the formatting map of applyMetadataToBlock, src/dist/index.js
lines 501-548) -/

/-- Host coercion primitives used by the formatter: parseFloat, and date
parsing (some t for a valid date with epoch value t, none when the parsed
time is NaN). -/
structure CoerceEnv where
  parseFloat : String → JsNum
  parseDate : String → Option Int

/-- The Boolean string coercion: true exactly when the lower-cased string
is one of true, yes, 1, ok. -/
def jsBoolOfString (s : String) : Bool :=
  ["true", "yes", "1", "ok"].contains (jsToLower s)

/-- The TextChoices value normalization: an array is taken as is; a string
is split on single spaces, each piece trimmed, empty pieces dropped; any
other value yields the empty list. -/
def normalizeChoiceValues (v : JsVal) : List String :=
  match v with
  | .arr xs => xs
  | .str s => ((jsSplitSpace s).map jsTrim).filter (fun x => x != "")
  | _ => []

/-- An empty typeArgs object. -/
def emptyTA : TypeArgs := { subType := none, choices := none, extra := [] }

/-- Whether a typeArgs object has no fields (Object.keys length zero). -/
def taIsEmpty (ta : TypeArgs) : Bool :=
  ta.subType.isNone && ta.choices.isNone && ta.extra.isEmpty

/-- The formatting map of applyMetadataToBlock: type-directed value
coercion (DateTime, Number, Boolean on string values), then the
TextChoices emission (value as normalized list, typeArgs rebuilt from
scratch with the choice list and subType multi), otherwise the typeArgs
defaulting (subType datetime for DateTime without one; empty typeArgs
omitted). -/
def formatProperty (env : CoerceEnv) (item : Property) : Property :=
  let value :=
    if item.type = PropType.dateTime then
      match item.value with
      | .str s =>
        match env.parseDate s with
        | some t => JsVal.date t
        | none => item.value
      | _ => item.value
    else if item.type = PropType.number then
      match item.value with
      | .str s => JsVal.num (env.parseFloat s)
      | _ => item.value
    else if item.type = PropType.boolean then
      match item.value with
      | .str s => JsVal.bool (jsBoolOfString s)
      | _ => item.value
    else item.value
  if item.type = PropType.textChoices then
    let cvs := normalizeChoiceValues value
    { name := item.name, type := item.type, value := JsVal.arr cvs,
      typeArgs := some { subType := some "multi",
                         choices := some (cvs.map (fun v => { n := v, c := "" })),
                         extra := [] } }
  else
    let ta := item.typeArgs.getD emptyTA
    let ta := if item.type = PropType.dateTime ∧ ta.subType = none then
        { ta with subType := some "datetime" }
      else ta
    { name := item.name, type := item.type, value := value,
      typeArgs := if taIsEmpty ta then none else some ta }

/-! ### Schema Reconciler (syncTagSchema, src/dist/index.js lines 426-482)

The source walks the new properties once, staging additions for unknown
names and, for TextChoices name collisions, pushing missing choices onto
the existing choices array in place (the push mutates the fetched schema
snapshot whenever that array is present on it). The embedding threads the
snapshot and the staged list through a fold. The one in-memory effect not
modelled is that a staged update holds a live reference to the pushed
array, so a second merge onto the same name within one pass would also
grow the earlier staged entry; no theorem below evaluates that case. -/

/-- existingProps.find by property name: the first entry whose name
matches. -/
def findByName : List Property → String → Option Property
  | [], _ => none
  | q :: qs, nm => if q.name == nm then some q else findByName qs nm

/-- The choices list of a property, defaulting to empty when typeArgs or
choices is absent. -/
def getChoices (p : Property) : List Choice :=
  (p.typeArgs.bind TypeArgs.choices).getD []

/-- The names of a choice list. -/
def choiceNames (cs : List Choice) : List String := cs.map Choice.n

/-- The new choices the merge appends: those of the new property whose
name is not among the existing property choice names. -/
def appendedChoices (ex p : Property) : List Choice :=
  (getChoices p).filter (fun nc => !((choiceNames (getChoices ex)).contains nc.n))

/-- A staged addition: name, type and typeArgs of the new property. Staged
entries carry no value; the null value stands for the absent field. -/
def additionOf (p : Property) : Property :=
  { name := p.name, type := p.type, typeArgs := p.typeArgs,
    value := JsVal.null }

/-- A staged choice-merge update: name and type of the new property, and
the spread of the existing typeArgs with the merged choices and subType
forced to multi. -/
def mergedUpdate (ex p : Property) : Property :=
  { name := p.name, type := p.type,
    typeArgs := some { (ex.typeArgs.getD emptyTA) with
                       choices := some (getChoices ex ++ appendedChoices ex p),
                       subType := some "multi" },
    value := JsVal.null }

/-- The in-place choice push on the schema snapshot: the choices array of
the matched entry is replaced by the merged list, but only when that entry
actually holds a choices array (otherwise the push lands on a fresh
array and the snapshot is untouched). -/
def touchChoices (merged : List Choice) (q : Property) : Property :=
  match q.typeArgs with
  | some ta =>
    match ta.choices with
    | some _ => { q with typeArgs := some { ta with choices := some merged } }
    | none => q
  | none => q

/-- Applies f to the first entry with the given name, as Array.find
exposes it for mutation. -/
def mapFirstNamed (nm : String) (f : Property → Property) :
    List Property → List Property
  | [] => []
  | q :: qs => if q.name == nm then f q :: qs else q :: mapFirstNamed nm f qs

/-- One iteration of the syncTagSchema loop on the state (schema snapshot,
staged updates). -/
def syncStep (st : List Property × List Property) (p : Property) :
    List Property × List Property :=
  match findByName st.1 p.name with
  | none => (st.1, st.2 ++ [additionOf p])
  | some ex =>
    if p.type = PropType.textChoices ∧ ex.type = PropType.textChoices then
      let schema2 := mapFirstNamed p.name
        (touchChoices (getChoices ex ++ appendedChoices ex p)) st.1
      if (appendedChoices ex p).isEmpty then (schema2, st.2)
      else (schema2, st.2 ++ [mergedUpdate ex p])
    else st

/-- syncTagSchema from the source, as the final (snapshot, staged updates)
state of the loop. -/
def syncTagSchema (schema props : List Property) :
    List Property × List Property :=
  props.foldl syncStep (schema, [])

/-- The propsToUpdate list the source hands to the setProperties command
(empty means no command is issued). -/
def stagedUpdates (schema props : List Property) : List Property :=
  (syncTagSchema schema props).2

/-- Replaces the first entry sharing the name of u by u, appending u when
no entry shares it. -/
def upsert : List Property → Property → List Property
  | [], u => [u]
  | q :: qs, u => if q.name == u.name then u :: qs else q :: upsert qs u

/-- Modelled from the spec: the host setProperties command (not part of
this repository) commits each staged definition into the tag schema; each
is applied by name, replacing the definition of an existing name and
appending a new one. -/
def applyUpdates (l : List Property) (us : List Property) : List Property :=
  us.foldl upsert l

/-- The schema state the host stores after one reconciliation pass. -/
def schemaAfterSync (schema props : List Property) : List Property :=
  applyUpdates schema (stagedUpdates schema props)

/-- The staging decision for one new property against a fixed schema:
an addition when the name is unknown, a merge update when both sides are
TextChoices and at least one choice is new, nothing otherwise. -/
def stageOne (schema : List Property) (p : Property) : Option Property :=
  match findByName schema p.name with
  | none => some (additionOf p)
  | some ex =>
    if p.type = PropType.textChoices ∧ ex.type = PropType.textChoices then
      if (appendedChoices ex p).isEmpty then none else some (mergedUpdate ex p)
    else none

/-! ## Helper lemmas -/

theorem matchHttpAt_hasPref {cs m : List Char}
    (h : matchHttpAt cs = some m) : hasPrefL ['h', 't', 't', 'p'] cs = true := by
  by_cases hp : hasPrefL ['h', 't', 't', 'p'] cs = true
  · exact hp
  · unfold matchHttpAt at h
    simp [hp] at h

theorem findHttpMatch_contains :
    ∀ {cs : List Char} {m : List Char}, findHttpMatch cs = some m →
      containsHttp cs = true := by
  intro cs
  induction cs with
  | nil => intro m h; simp [findHttpMatch] at h
  | cons c cs ih =>
    intro m h
    unfold findHttpMatch at h
    unfold containsHttp containsL
    cases hm : matchHttpAt (c :: cs) with
    | some m2 => simp [matchHttpAt_hasPref hm]
    | none =>
      rw [hm] at h
      have hc : containsHttp cs = true := ih h
      unfold containsHttp at hc
      simp [hc]

theorem find?_some_split {α : Type} {p : α → Bool} {l : List α} {a : α}
    (h : l.find? p = some a) :
    ∃ l1 l2, l = l1 ++ a :: l2 ∧ p a = true ∧ ∀ x ∈ l1, p x = false := by
  rcases List.find?_eq_some.mp h with ⟨hpa, as, bs, hsplit, hall⟩
  exact ⟨as, bs, hsplit, hpa, fun x hx => by simpa using hall x hx⟩

/-! ## C4: the URL Locator returns the first URL in content order,
a link item url preferred over a regex extraction within each item,
empty string when none is found -/

theorem findUrlInItems_eq_spec (items : List ContentItem) :
    findUrlInItems items = (items.findSome? itemUrl).getD "" := by
  induction items with
  | nil => rfl
  | cons it rest ih =>
    by_cases h1 : (it.t == "a" && urlTruthy it.url) = true
    · cases hu : it.url with
      | none => rw [hu] at h1; simp [urlTruthy] at h1
      | some u =>
        rw [hu] at h1
        simp [findUrlInItems, itemUrl, List.findSome?_cons, h1, hu]
    · cases hv : it.v with
      | none => simp [findUrlInItems, itemUrl, List.findSome?_cons, h1, hv, ih]
      | some s =>
        by_cases h2 : containsHttp s.data = true
        · cases hm : findHttpMatch s.data with
          | some m =>
            simp [findUrlInItems, itemUrl, List.findSome?_cons, h1, hv, h2, hm]
          | none =>
            simp [findUrlInItems, itemUrl, List.findSome?_cons, h1, hv, h2,
              hm, ih]
        · have hnone : findHttpMatch s.data = none := by
            cases hm : findHttpMatch s.data with
            | none => rfl
            | some m => exact absurd (findHttpMatch_contains hm) h2
          simp [findUrlInItems, itemUrl, List.findSome?_cons, h1, hv, h2,
            hnone, ih]

/-- C4: findUrlInBlock agrees with the spec form of the URL Locator on
every block: it returns the first URL found in the ordered content, where
each item yields its explicit link url in preference to a URL
regex-extracted from its text, and it returns the empty string when no
item yields a URL. -/
theorem findUrlInBlock_eq_spec (b : Option Block) :
    findUrlInBlock b = urlLocatorSpec b := by
  cases b with
  | none => rfl
  | some blk =>
    cases hc : blk.content with
    | none => simp [findUrlInBlock, urlLocatorSpec, hc]
    | some items =>
      simp [findUrlInBlock, urlLocatorSpec, hc, findUrlInItems_eq_spec]

/-! ## C5: rules with failing patterns are skipped, but an unterminated
slash literal is not a failing pattern -/

/-- C5 (amended): for every regex engine, URL and rule list, a rule whose
pattern source and flags (as split by matchRule) make the engine raise at
compile time tests as non-matching and is never the selected rule; the
exception never escapes matchRule, which is why an engine failing on every
pattern still yields a plain no-match result. -/
theorem matchRule_skips_failing_pattern
    (E : String → String → String → Option Bool)
    (url : String) (rules : List Rule) (r : Rule)
    (hE : E (patternParts r.urlPattern).1 (patternParts r.urlPattern).2 url
      = none) :
    ruleMatches E url r = false ∧ matchRule E url rules ≠ some r := by
  have hrm : ruleMatches E url r = false := by
    unfold ruleMatches
    by_cases he : r.enabled = true
    · simp [he, hE]
    · simp [he]
  refine ⟨hrm, ?_⟩
  intro hsome
  have hp := List.find?_some hsome
  rw [hrm] at hp
  exact absurd hp (by simp)

theorem matchRule_skips_failing_pattern_witness :
    regexExec (patternParts "(").1 (patternParts "(").2 "https://x" = none ∧
    (ruleMatches regexExec "https://x"
        ⟨"bad", true, "(", "T", false, []⟩ = false ∧
      matchRule regexExec "https://x" [⟨"bad", true, "(", "T", false, []⟩]
        ≠ some ⟨"bad", true, "(", "T", false, []⟩) :=
  ⟨by decide,
   matchRule_skips_failing_pattern regexExec "https://x"
     [⟨"bad", true, "(", "T", false, []⟩] ⟨"bad", true, "(", "T", false, []⟩
     (by decide)⟩

/-- C5 counterexample: the enabled rule with the unterminated slash
literal /abc as its urlPattern is selected by matchRule for a URL
containing /abc — the pattern is compiled as a bare case-insensitive
regex, not skipped, contradicting the claim that such a rule is never
selected. -/
theorem matchRule_unterminated_literal_selected :
    matchRule regexExec "https://x/abc"
      [⟨"bad", true, "/abc", "T", false, []⟩] =
      some ⟨"bad", true, "/abc", "T", false, []⟩ := by decide

/-! ## C6: a trailing enabled catch-all rule guarantees a match, and the
returned rule is the first enabled rule whose pattern matches -/

/-- C6: for every URL and rule list ending in an enabled rule with
urlPattern .*, matchRule (with the modelled regex engine) returns some
rule, and the returned rule is the first rule in list order that is
enabled and whose compiled pattern matches the URL (all earlier rules
test as non-matching). -/
theorem matchRule_fallback_covers (url : String) (rules : List Rule)
    (R : Rule) (hlast : rules.getLast? = some R)
    (hpat : R.urlPattern = ".*") (hen : R.enabled = true) :
    ∃ r, matchRule regexExec url rules = some r ∧
      ∃ l1 l2, rules = l1 ++ r :: l2 ∧
        ruleMatches regexExec url r = true ∧
        ∀ q ∈ l1, ruleMatches regexExec url q = false := by
  have hstar : ∀ u : String, regexExec ".*" "i" u = some true := by
    intro u
    have h1 : flagsOkL [] "i".data = true := by decide
    unfold regexExec
    simp [h1]
  have hR : ruleMatches regexExec url R = true := by
    unfold ruleMatches
    have hparts : patternParts R.urlPattern = (".*", "i") := by
      rw [hpat]; decide
    simp [hen, hparts, hstar url]
  have hmem : R ∈ rules := List.mem_of_getLast?_eq_some hlast
  have hsome : (rules.find? (ruleMatches regexExec url)).isSome := by
    rw [List.find?_isSome]
    exact ⟨R, hmem, hR⟩
  cases hfind : rules.find? (ruleMatches regexExec url) with
  | none => rw [hfind] at hsome; simp at hsome
  | some r =>
    rcases find?_some_split hfind with ⟨l1, l2, hsplit, hpr, hall⟩
    exact ⟨r, hfind, l1, l2, hsplit, hpr, hall⟩

theorem matchRule_fallback_covers_witness :
    ([⟨"off", false, "nope", "T", false, []⟩,
      ⟨"Generic", true, ".*", "Bookmark", false, []⟩] :
        List Rule).getLast? = some ⟨"Generic", true, ".*", "Bookmark", false, []⟩ ∧
    (∃ r, matchRule regexExec "https://example.com"
        [⟨"off", false, "nope", "T", false, []⟩,
         ⟨"Generic", true, ".*", "Bookmark", false, []⟩] = some r ∧
      ∃ l1 l2,
        ([⟨"off", false, "nope", "T", false, []⟩,
          ⟨"Generic", true, ".*", "Bookmark", false, []⟩] : List Rule)
          = l1 ++ r :: l2 ∧
        ruleMatches regexExec "https://example.com" r = true ∧
        ∀ q ∈ l1, ruleMatches regexExec "https://example.com" q = false) :=
  ⟨by decide,
   matchRule_fallback_covers "https://example.com"
     [⟨"off", false, "nope", "T", false, []⟩,
      ⟨"Generic", true, ".*", "Bookmark", false, []⟩]
     ⟨"Generic", true, ".*", "Bookmark", false, []⟩ (by decide) rfl rfl⟩

/-! ## C3: a script returning a non-sequence does not fail static
extraction; it yields an empty metadata list -/

/-- C3 counterexample: with a valid URL, a successful fetch and a script
run that returns a non-array value, extractMetadataStatic returns ok with
the empty property list — it does not fail with a script execution error
as the claim states. -/
theorem extractMetadataStatic_nonArray_ok :
    extractMetadataStatic true (.resp true 200 "<html></html>")
      .returnedOther "https://x" = .ok [] := by rfl

/-- C3 (amended): with a valid URL and an ok fetch response, a script that
throws makes static extraction fail with the thrown message surfaced, a
script returning an array yields exactly that metadata, and a script
returning a non-sequence yields the empty metadata list (extraction
succeeds and no extracted property exists to be committed). -/
theorem extractMetadataStatic_outcomes (urlValid : Bool) (status : Nat)
    (html url : String) (run : ScriptOutcome)
    (hurl : (url == "") = false) (hv : urlValid = true) :
    (∀ m, run = .threw m →
      extractMetadataStatic urlValid (.resp true status html) run url
        = .error m) ∧
    (∀ l, run = .returnedArr l →
      extractMetadataStatic urlValid (.resp true status html) run url
        = .ok l) ∧
    (run = .returnedOther →
      extractMetadataStatic urlValid (.resp true status html) run url
        = .ok []) := by
  unfold extractMetadataStatic
  simp [hurl, hv]
  refine ⟨fun m hm => by rw [hm], fun l hl => by rw [hl], fun h => by rw [h]⟩

theorem extractMetadataStatic_outcomes_witness :
    (("https://x" == "") = false) ∧
    (extractMetadataStatic true (.resp true 200 "") (.threw "boom") "https://x"
      = .error "boom") :=
  ⟨by decide,
   (extractMetadataStatic_outcomes true 200 "" "https://x" (.threw "boom")
     (by decide) rfl).1 "boom" rfl⟩

/-! ## C7: the asset resolver never raises, degrades to the original value,
and touches a value only under its guard -/

/-- C7: for every host environment (including ones whose every call
throws), every cover-download flag and every metadata list, each output
value either equals the corresponding input value (every swallowed or
escaped failure ends in the outer catch keeping the original value, so no
exception leaves processProperties) or is the string returned by a
successful resolution, which can happen only when cover download is
requested, the property subType is image, and the value is a string
beginning with http or data:. -/
theorem processProperties_never_raises (env : AssetEnv)
    (downloadCover : Bool) (metadata : List Property) :
    List.Forall₂ (fun inp outp =>
        outp.value = inp.value ∨
        (downloadCover = true ∧ subTypeOf inp = some "image" ∧
          ∃ s u, inp.value = JsVal.str s ∧
            (strStarts s "http" = true ∨ strStarts s "data:" = true) ∧
            resolveImageAttempt env s = Except.ok u ∧
            outp.value = JsVal.str u))
      metadata (processProperties env downloadCover metadata) := by
  unfold processProperties
  induction metadata with
  | nil => simp
  | cons item rest ih =>
    simp only [List.map_cons]
    refine List.Forall₂.cons ?_ ih
    by_cases hg : shouldResolve downloadCover item = true
    · unfold processItem
      rw [if_pos hg]
      unfold shouldResolve at hg
      cases hval : item.value with
      | str s =>
        rw [hval] at hg
        simp only [Bool.and_eq_true, beq_iff_eq] at hg
        cases hres : resolveImageAttempt env s with
        | ok u =>
          refine Or.inr ⟨hg.1.1, hg.1.2, s, u, rfl, ?_, hres, ?_⟩
          · simpa using hg.2
          · simp [hres]
        | error e =>
          refine Or.inl ?_
          simp [hres]
      | num n => rw [hval] at hg; simp at hg
      | bool b => rw [hval] at hg; simp at hg
      | arr xs => rw [hval] at hg; simp at hg
      | date t => rw [hval] at hg; simp at hg
      | null => rw [hval] at hg; simp at hg
    · refine Or.inl ?_
      unfold processItem
      rw [if_neg hg]

/-! ## C10: processProperties keeps length and order, and every field but
the value -/

/-- C10: for every host environment, cover flag and metadata list,
processProperties returns a list of the same length, pairing each input
item in order with an output item that keeps its name, type and typeArgs;
only the value field can differ. -/
theorem processProperties_frame (env : AssetEnv) (downloadCover : Bool)
    (metadata : List Property) :
    (processProperties env downloadCover metadata).length = metadata.length ∧
    List.Forall₂ (fun inp outp =>
        outp.name = inp.name ∧ outp.type = inp.type ∧
        outp.typeArgs = inp.typeArgs)
      metadata (processProperties env downloadCover metadata) := by
  constructor
  · simp [processProperties]
  · unfold processProperties
    induction metadata with
    | nil => simp
    | cons item rest ih =>
      simp only [List.map_cons]
      exact List.Forall₂.cons ⟨rfl, rfl, rfl⟩ ih

/-! ## C8: TextChoices formatting always emits the choice list and subType
multi, discarding caller-supplied typeArgs -/

/-- C8: for every property of type TextChoices, the formatted property
carries as value the normalized choice sequence and as typeArgs exactly
subType multi together with one choice entry of shape (name, empty color)
per element of that sequence; whatever typeArgs (in particular choices)
the caller supplied is discarded. -/
theorem formatProperty_textChoices (env : CoerceEnv) (item : Property)
    (ht : item.type = PropType.textChoices) :
    formatProperty env item =
      { name := item.name, type := PropType.textChoices,
        value := JsVal.arr (normalizeChoiceValues item.value),
        typeArgs := some { subType := some "multi",
                           choices := some ((normalizeChoiceValues item.value).map
                             (fun v => { n := v, c := "" })),
                           extra := [] } } := by
  unfold formatProperty
  rw [ht]
  simp

theorem formatProperty_textChoices_witness :
    formatProperty ⟨fun _ => .nan, fun _ => none⟩
      { name := "tags", type := .textChoices,
        value := .str "fiction nonfiction",
        typeArgs := some { subType := some "junk",
                           choices := some [{ n := "junk", c := "red" }],
                           extra := [("k", "v")] } } =
      { name := "tags", type := .textChoices,
        value := .arr ["fiction", "nonfiction"],
        typeArgs := some { subType := some "multi",
                           choices := some [{ n := "fiction", c := "" },
                                            { n := "nonfiction", c := "" }],
                           extra := [] } } := by
  rw [formatProperty_textChoices _ _ rfl]
  decide

/-! ## C9: Boolean string coercion -/

/-- C9: for every property of type Boolean with a string value, the
formatted value is the boolean that is true exactly when the lower-cased
string is one of true, yes, 1, ok, and false for every other string. -/
theorem formatProperty_boolean (env : CoerceEnv) (item : Property)
    (s : String) (ht : item.type = PropType.boolean)
    (hv : item.value = JsVal.str s) :
    (formatProperty env item).value =
      JsVal.bool (["true", "yes", "1", "ok"].contains (jsToLower s)) := by
  unfold formatProperty
  rw [ht, hv]
  simp [jsBoolOfString]

theorem formatProperty_boolean_witness :
    (formatProperty ⟨fun _ => .nan, fun _ => none⟩
      { name := "done", type := .boolean, value := .str "Yes",
        typeArgs := none }).value = JsVal.bool true :=
  (formatProperty_boolean ⟨fun _ => .nan, fun _ => none⟩
    { name := "done", type := .boolean, value := .str "Yes",
      typeArgs := none } "Yes" rfl rfl).trans (by decide)

/-! ## Reconciler lemmas -/

theorem touchChoices_name (merged : List Choice) (q : Property) :
    (touchChoices merged q).name = q.name := by
  rcases q with ⟨nm, ty, v, ta⟩
  rcases ta with _ | ⟨st, ch, ex⟩
  · rfl
  · rcases ch with _ | cs <;> rfl

theorem findByName_mapFirstNamed (l : List Property) (nm m : String)
    (f : Property → Property) (hf : ∀ q, (f q).name = q.name) (hne : m ≠ nm) :
    findByName (mapFirstNamed nm f l) m = findByName l m := by
  induction l with
  | nil => rfl
  | cons q qs ih =>
    unfold mapFirstNamed
    by_cases hq : (q.name == nm) = true
    · rw [if_pos hq]
      have hqnm : q.name = nm := by simpa using hq
      have h1 : ¬((f q).name == m) = true := by
        rw [hf q, hqnm]
        simp [Ne.symm hne]
      have h2 : ¬(q.name == m) = true := by
        rw [hqnm]
        simp [Ne.symm hne]
      unfold findByName
      rw [if_neg h1, if_neg h2]
    · rw [if_neg hq]
      by_cases hqm : (q.name == m) = true
      · unfold findByName
        rw [if_pos hqm, if_pos hqm]
      · unfold findByName
        rw [if_neg hqm, if_neg hqm]
        exact ih

theorem findByName_upsert_self (l : List Property) (u : Property) :
    findByName (upsert l u) u.name = some u := by
  induction l with
  | nil =>
    unfold upsert findByName
    simp
  | cons q qs ih =>
    unfold upsert
    by_cases hq : (q.name == u.name) = true
    · rw [if_pos hq]
      unfold findByName
      rw [if_pos (by simp : (u.name == u.name) = true)]
    · rw [if_neg hq]
      unfold findByName
      rw [if_neg hq]
      exact ih

theorem findByName_upsert_other (l : List Property) (u : Property)
    (m : String) (hne : u.name ≠ m) :
    findByName (upsert l u) m = findByName l m := by
  induction l with
  | nil =>
    simp [upsert, findByName, hne]
  | cons q qs ih =>
    unfold upsert
    by_cases hq : (q.name == u.name) = true
    · rw [if_pos hq]
      have hqm : ¬(q.name == m) = true := by
        have hqu : q.name = u.name := by simpa using hq
        rw [hqu]
        simp [hne]
      unfold findByName
      rw [if_neg (by simp [hne] : ¬(u.name == m) = true), if_neg hqm]
    · rw [if_neg hq]
      by_cases hqm : (q.name == m) = true
      · unfold findByName
        rw [if_pos hqm, if_pos hqm]
      · unfold findByName
        rw [if_neg hqm, if_neg hqm]
        exact ih

theorem findByName_applyUpdates_not_mem (us : List Property) :
    ∀ (l : List Property) (m : String), (∀ u ∈ us, u.name ≠ m) →
      findByName (applyUpdates l us) m = findByName l m := by
  induction us with
  | nil => intro l m _; rfl
  | cons u us ih =>
    intro l m h
    unfold applyUpdates
    rw [List.foldl_cons]
    have hrec := ih (upsert l u) m (fun w hw => h w (List.mem_cons_of_mem _ hw))
    unfold applyUpdates at hrec
    rw [hrec]
    exact findByName_upsert_other l u m (h u (List.mem_cons_self _ _))

theorem findByName_applyUpdates_last (l us1 us2 : List Property)
    (u : Property) (h2 : ∀ w ∈ us2, w.name ≠ u.name) :
    findByName (applyUpdates l (us1 ++ u :: us2)) u.name = some u := by
  unfold applyUpdates
  rw [List.foldl_append, List.foldl_cons]
  have := findByName_applyUpdates_not_mem us2
    (upsert (List.foldl upsert l us1) u) u.name h2
  unfold applyUpdates at this
  rw [this]
  exact findByName_upsert_self _ u

theorem stageOne_name {schema : List Property} {p u : Property}
    (h : stageOne schema p = some u) : u.name = p.name := by
  unfold stageOne at h
  cases hf : findByName schema p.name with
  | none =>
    simp only [hf] at h
    rw [← Option.some.inj h]
    rfl
  | some ex =>
    simp only [hf] at h
    by_cases hc : p.type = PropType.textChoices ∧ ex.type = PropType.textChoices
    · simp only [if_pos hc] at h
      by_cases he : (appendedChoices ex p).isEmpty = true
      · simp only [if_pos he] at h; simp at h
      · simp only [if_neg he] at h
        rw [← Option.some.inj h]
        rfl
    · simp only [if_neg hc] at h; simp at h

theorem stageOne_congr (s1 s2 : List Property) (p : Property)
    (h : findByName s1 p.name = findByName s2 p.name) :
    stageOne s1 p = stageOne s2 p := by
  unfold stageOne
  rw [h]

theorem stageOne_of_find_some {schema : List Property} {p ex : Property}
    (hf : findByName schema p.name = some ex) :
    stageOne schema p =
      if p.type = PropType.textChoices ∧ ex.type = PropType.textChoices then
        if (appendedChoices ex p).isEmpty = true then none
        else some (mergedUpdate ex p)
      else none := by
  unfold stageOne
  simp only [hf]

theorem syncStep_snd (schema us : List Property) (p : Property) :
    (syncStep (schema, us) p).2 = us ++ (stageOne schema p).toList := by
  unfold syncStep stageOne
  cases hf : findByName schema p.name with
  | none => simp only [hf]; simp
  | some ex =>
    simp only [hf]
    by_cases hc : p.type = PropType.textChoices ∧ ex.type = PropType.textChoices
    · simp only [if_pos hc]
      by_cases he : (appendedChoices ex p).isEmpty = true
      · simp [he]
      · simp [he]
    · simp only [if_neg hc]
      simp

theorem syncStep_fst (schema us : List Property) (p : Property) :
    (syncStep (schema, us) p).1 = schema ∨
    ∃ f, (∀ q, (f q).name = q.name) ∧
      (syncStep (schema, us) p).1 = mapFirstNamed p.name f schema := by
  unfold syncStep
  cases hf : findByName schema p.name with
  | none => left; simp only [hf]
  | some ex =>
    simp only [hf]
    by_cases hc : p.type = PropType.textChoices ∧ ex.type = PropType.textChoices
    · right
      refine ⟨touchChoices (getChoices ex ++ appendedChoices ex p),
        touchChoices_name _, ?_⟩
      simp only [if_pos hc]
      split <;> rfl
    · left
      simp only [if_neg hc]

theorem syncFold_snd (props : List Property) :
    ∀ (schema us : List Property),
      (props.map Property.name).Nodup →
      (props.foldl syncStep (schema, us)).2
        = us ++ props.filterMap (stageOne schema) := by
  induction props with
  | nil => intro schema us _; simp
  | cons p rest ih =>
    intro schema us h
    obtain ⟨hnotmem, hrest⟩ : p.name ∉ rest.map Property.name ∧
        (rest.map Property.name).Nodup := by
      simpa using h
    rw [List.foldl_cons]
    have hstep2 := syncStep_snd schema us p
    have hstep1 := syncStep_fst schema us p
    rw [show syncStep (schema, us) p
        = ((syncStep (schema, us) p).1, (syncStep (schema, us) p).2) from rfl]
    rw [ih _ _ hrest, hstep2]
    have hcongr : rest.filterMap (stageOne (syncStep (schema, us) p).1)
        = rest.filterMap (stageOne schema) := by
      apply List.filterMap_congr
      intro q hq
      have hqname : q.name ≠ p.name := by
        intro hEq
        exact hnotmem (hEq ▸ List.mem_map_of_mem _ hq)
      rcases hstep1 with h1 | ⟨f, hf, h1⟩
      · rw [h1]
      · rw [h1]
        exact stageOne_congr _ _ q
          (findByName_mapFirstNamed schema p.name q.name f hf hqname)
    rw [hcongr, List.filterMap_cons]
    cases hs : stageOne schema p <;> simp [hs]

/-- Under distinct new-property names, the staged updates are exactly the
per-property staging decisions against the initial schema snapshot. -/
theorem stagedUpdates_eq_filterMap (schema props : List Property)
    (h : (props.map Property.name).Nodup) :
    stagedUpdates schema props = props.filterMap (stageOne schema) := by
  unfold stagedUpdates syncTagSchema
  rw [syncFold_snd props schema [] h]
  rfl

theorem appendedChoices_self_nil {u p : Property}
    (h : ∀ nc ∈ getChoices p, nc.n ∈ choiceNames (getChoices u)) :
    appendedChoices u p = [] := by
  unfold appendedChoices
  rw [List.filter_eq_nil_iff]
  intro nc hnc
  simp
  exact h nc hnc

theorem choiceNames_mem_merged (ex p : Property) :
    ∀ nc ∈ getChoices p,
      nc.n ∈ choiceNames (getChoices ex ++ appendedChoices ex p) := by
  intro nc hnc
  unfold choiceNames
  rw [List.map_append, List.mem_append]
  by_cases hmem : nc.n ∈ (getChoices ex).map Choice.n
  · exact Or.inl hmem
  · right
    have hin : nc ∈ appendedChoices ex p := by
      unfold appendedChoices
      rw [List.mem_filter]
      refine ⟨hnc, ?_⟩
      simp
      exact hmem
    exact List.mem_map_of_mem _ hin

theorem stageOne_choices_closed {schema : List Property} {p u : Property}
    (h : stageOne schema p = some u) :
    ∀ nc ∈ getChoices p, nc.n ∈ choiceNames (getChoices u) := by
  unfold stageOne at h
  cases hf : findByName schema p.name with
  | none =>
    simp only [hf] at h
    rw [← Option.some.inj h]
    exact fun nc hnc => List.mem_map_of_mem _ hnc
  | some ex =>
    simp only [hf] at h
    by_cases hc : p.type = PropType.textChoices ∧ ex.type = PropType.textChoices
    · simp only [if_pos hc] at h
      by_cases he : (appendedChoices ex p).isEmpty = true
      · simp only [if_pos he] at h; simp at h
      · simp only [if_neg he] at h
        rw [← Option.some.inj h]
        exact choiceNames_mem_merged ex p
    · simp only [if_neg hc] at h; simp at h

/-- After one reconciliation pass is committed, no property of a
distinct-names batch stages anything on a second pass. -/
theorem stageOne_after_sync (schema props : List Property) (p : Property)
    (hnodup : (props.map Property.name).Nodup) (hp : p ∈ props) :
    stageOne (schemaAfterSync schema props) p = none := by
  obtain ⟨l1, l2, rfl⟩ := List.append_of_mem hp
  have hnodup2 := hnodup
  rw [List.map_append, List.map_cons, List.nodup_append] at hnodup2
  obtain ⟨hn1, hn2, hdisj⟩ := hnodup2
  have hnot1 : p.name ∉ l1.map Property.name := fun hmem =>
    hdisj hmem (List.mem_cons_self _ _)
  have hnot2 : p.name ∉ l2.map Property.name := (List.nodup_cons.mp hn2).1
  unfold schemaAfterSync
  rw [stagedUpdates_eq_filterMap _ _ hnodup, List.filterMap_append]
  cases hs : stageOne schema p with
  | none =>
    rw [List.filterMap_cons_none hs]
    have hfix : findByName (applyUpdates schema
        (l1.filterMap (stageOne schema) ++ l2.filterMap (stageOne schema)))
        p.name = findByName schema p.name := by
      apply findByName_applyUpdates_not_mem
      intro u hu
      rcases List.mem_append.mp hu with hmem | hmem
      · obtain ⟨q, hq, hstage⟩ := List.mem_filterMap.mp hmem
        rw [stageOne_name hstage]
        intro hqp
        exact hnot1 (hqp ▸ List.mem_map_of_mem _ hq)
      · obtain ⟨q, hq, hstage⟩ := List.mem_filterMap.mp hmem
        rw [stageOne_name hstage]
        intro hqp
        exact hnot2 (hqp ▸ List.mem_map_of_mem _ hq)
    rw [stageOne_congr _ schema p hfix]
    exact hs
  | some u =>
    rw [List.filterMap_cons_some hs]
    have huname : u.name = p.name := stageOne_name hs
    have hfound : findByName (applyUpdates schema
        (l1.filterMap (stageOne schema) ++ u :: l2.filterMap (stageOne schema)))
        p.name = some u := by
      rw [← huname]
      apply findByName_applyUpdates_last
      intro w hw
      obtain ⟨q, hq, hstage⟩ := List.mem_filterMap.mp hw
      rw [stageOne_name hstage, huname]
      intro hqp
      exact hnot2 (hqp ▸ List.mem_map_of_mem _ hq)
    have happ : appendedChoices u p = [] :=
      appendedChoices_self_nil (stageOne_choices_closed hs)
    rw [stageOne_of_find_some hfound]
    by_cases hc : p.type = PropType.textChoices ∧ u.type = PropType.textChoices
    · rw [if_pos hc, happ]
      rfl
    · rw [if_neg hc]

/-! ## C1: reconciliation idempotence -/

/-- C1 (amended): for every tag schema with unique property names and
every formatted property list whose property names are themselves
pairwise distinct, committing the staged changes of a first
reconciliation pass and rerunning the pass with the same list stages
nothing — no additions and no choice-merge updates — so no update command
is issued on the second pass and the schema state is identical. (Without
distinct names in the property list the invariant fails, see the
counterexample.) -/
theorem syncTagSchema_idempotent (schema props : List Property)
    (hschema : (schema.map Property.name).Nodup)
    (hprops : (props.map Property.name).Nodup) :
    stagedUpdates (schemaAfterSync schema props) props = [] ∧
    schemaAfterSync (schemaAfterSync schema props) props
      = schemaAfterSync schema props := by
  have h1 : stagedUpdates (schemaAfterSync schema props) props = [] := by
    rw [stagedUpdates_eq_filterMap _ _ hprops, List.filterMap_eq_nil_iff]
    exact fun p hp => stageOne_after_sync schema props p hprops hp
  refine ⟨h1, ?_⟩
  show applyUpdates (schemaAfterSync schema props)
      (stagedUpdates (schemaAfterSync schema props) props)
    = schemaAfterSync schema props
  rw [h1]
  rfl

/-- C1 counterexample: starting from the empty schema, a formatted
property list that repeats the name a with two different TextChoices
choice sets stages two additions on the first pass; after committing
them, a second pass with the same list stages a choice-merge update, so
an update command is issued again and the schema changes — reconciliation
is not idempotent for every formatted property list. -/
theorem syncTagSchema_not_idempotent :
    stagedUpdates
      (schemaAfterSync []
        [{ name := "a", type := .textChoices, value := .null,
           typeArgs := some { subType := some "multi",
                              choices := some [{ n := "x", c := "" }],
                              extra := [] } },
         { name := "a", type := .textChoices, value := .null,
           typeArgs := some { subType := some "multi",
                              choices := some [{ n := "y", c := "" }],
                              extra := [] } }])
      [{ name := "a", type := .textChoices, value := .null,
         typeArgs := some { subType := some "multi",
                            choices := some [{ n := "x", c := "" }],
                            extra := [] } },
       { name := "a", type := .textChoices, value := .null,
         typeArgs := some { subType := some "multi",
                            choices := some [{ n := "y", c := "" }],
                            extra := [] } }] ≠ [] := by decide

theorem syncTagSchema_idempotent_witness :
    stagedUpdates
      (schemaAfterSync
        [{ name := "tags", type := .textChoices, value := .null,
           typeArgs := some { subType := some "multi",
                              choices := some [{ n := "fiction", c := "" }],
                              extra := [] } }]
        [{ name := "tags", type := .textChoices,
           value := .arr ["fiction", "nonfiction"],
           typeArgs := some { subType := some "multi",
                              choices := some [{ n := "fiction", c := "" },
                                               { n := "nonfiction", c := "" }],
                              extra := [] } },
         { name := "title", type := .text, value := .str "T",
           typeArgs := none }])
      [{ name := "tags", type := .textChoices,
         value := .arr ["fiction", "nonfiction"],
         typeArgs := some { subType := some "multi",
                            choices := some [{ n := "fiction", c := "" },
                                             { n := "nonfiction", c := "" }],
                            extra := [] } },
       { name := "title", type := .text, value := .str "T",
         typeArgs := none }] = [] :=
  (syncTagSchema_idempotent
    [{ name := "tags", type := .textChoices, value := .null,
       typeArgs := some { subType := some "multi",
                          choices := some [{ n := "fiction", c := "" }],
                          extra := [] } }]
    [{ name := "tags", type := .textChoices,
       value := .arr ["fiction", "nonfiction"],
       typeArgs := some { subType := some "multi",
                          choices := some [{ n := "fiction", c := "" },
                                           { n := "nonfiction", c := "" }],
                          extra := [] } },
     { name := "title", type := .text, value := .str "T",
       typeArgs := none }] (by decide) (by decide)).1

/-! ## C2: the TextChoices merge of the reconciler -/

/-- C2: when an existing schema property and a new property share a name
and both are TextChoices, the reconciliation of that property keeps the
existing choices in order and appends exactly those new choices whose
name is not already among the existing choice names, stages an update
only when at least one choice was appended, and the staged typeArgs
keeps every pre-existing field (here the extra fields) while forcing
subType multi. -/
theorem syncTagSchema_merge (schema : List Property) (p ex : Property)
    (hf : findByName schema p.name = some ex)
    (hpt : p.type = PropType.textChoices)
    (het : ex.type = PropType.textChoices) :
    stagedUpdates schema [p] =
      if (appendedChoices ex p).isEmpty then [] else
        [{ name := p.name, type := p.type,
           typeArgs := some { subType := some "multi",
                              choices := some (getChoices ex
                                ++ appendedChoices ex p),
                              extra := (ex.typeArgs.getD emptyTA).extra },
           value := JsVal.null }] := by
  have hps : (([p] : List Property).map Property.name).Nodup := by simp
  rw [stagedUpdates_eq_filterMap _ _ hps]
  have hstage := stageOne_of_find_some hf
  rw [if_pos ⟨hpt, het⟩] at hstage
  by_cases he : (appendedChoices ex p).isEmpty = true
  · rw [if_pos he] at hstage
    rw [List.filterMap_cons_none hstage, if_pos he]
    rfl
  · rw [if_neg he] at hstage
    rw [List.filterMap_cons_some hstage, if_neg he]
    rfl

theorem syncTagSchema_merge_witness :
    stagedUpdates
      [{ name := "tags", type := .textChoices, value := .null,
         typeArgs := some { subType := none,
                            choices := some [{ n := "fiction", c := "" }],
                            extra := [] } }]
      [formatProperty ⟨fun _ => .nan, fun _ => none⟩
        { name := "tags", type := .textChoices,
          value := .str "fiction nonfiction", typeArgs := none }] =
      [{ name := "tags", type := .textChoices,
         typeArgs := some { subType := some "multi",
                            choices := some [{ n := "fiction", c := "" },
                                             { n := "nonfiction", c := "" }],
                            extra := [] },
         value := .null }] := by
  rw [syncTagSchema_merge
    [{ name := "tags", type := .textChoices, value := .null,
       typeArgs := some { subType := none,
                          choices := some [{ n := "fiction", c := "" }],
                          extra := [] } }]
    (formatProperty ⟨fun _ => .nan, fun _ => none⟩
      { name := "tags", type := .textChoices,
        value := .str "fiction nonfiction", typeArgs := none })
    { name := "tags", type := .textChoices, value := .null,
      typeArgs := some { subType := none,
                         choices := some [{ n := "fiction", c := "" }],
                         extra := [] } }
    (by decide) (by decide) (by decide)]
  decide

end FBook
